import Mathlib

/-!
Verification of `aruudy/poetry/meter.py` (ArArud): a shallow embedding of the
scansion engine — the tokenizer `get_ameter`, the encoding converters
`a2e_meter` / `e2a_meter`, the meter templates (`Bahr`) with their `validate`
method, the registry `buhuur` with `get_bahr` and `search_bahr`, and the
dynamic attribute accessor `get_value`.

Python strings are modelled as `List Char` where character-level scanning
matters (emeter/ameter strings, the tokenizer buffer) and as `String` for
names and dictionary keys.  Python exceptions are modelled with `Except`.
-/

/-- The set of diacritics recognized by `re_haraka` in the source:
fatha (U+064E), damma (U+064F), kasra (U+0650) and madda above (U+0653). -/
def haraka (c : Char) : Bool :=
  c = 'َ' || c = 'ُ' || c = 'ِ' || c = 'ٓ'

/-- Whitespace characters, as stripped by Python `str.strip()` (ASCII part). -/
def isSpace (c : Char) : Bool :=
  c = ' ' || c = '\t' || c = '\n' || c = '\r' || c = '\x0b' || c = '\x0c'

/-- Truthiness of Python `s.strip()`: true iff some character is not whitespace. -/
def hasInk (l : List Char) : Bool := l.any (fun c => !(isSpace c))

/-- Python slice `s[:-2]` (everything but the last two characters). -/
def pyInit2 (l : List Char) : List Char := l.take (l.length - 2)

/-- Python slice `s[-2:]` (the last two characters, or the whole string if shorter). -/
def pyTail2 (l : List Char) : List Char := l.drop (l.length - 2)

/-- The loop state of `get_ameter`: the accumulated ameter string, the emitted
parts, and the character buffer. -/
structure ScanState where
  ameter : List Char
  parts : List (List Char)
  buf : List Char
deriving DecidableEq

/-- One iteration of the `for c in text` loop of `get_ameter`: append `c` to the
buffer; on a haraka, emit a cord part `buf[:-2]` (when its strip is truthy)
followed by a peg part, then clear the buffer. -/
def scanStep (st : ScanState) (c : Char) : ScanState :=
  let buf := st.buf ++ [c]
  if haraka c then
    if hasInk (pyInit2 buf) then
      { ameter := st.ameter ++ ['s', 'w'],
        parts := st.parts ++ [pyInit2 buf, pyTail2 buf],
        buf := [] }
    else
      { ameter := st.ameter ++ ['w'],
        parts := st.parts ++ [buf],
        buf := [] }
  else
    { st with buf := buf }

/-- `get_ameter(text)` from the source: scan the text, then flush a trailing
cord part when the remaining buffer has non-whitespace content. -/
def get_ameter (text : List Char) : List Char × List (List Char) :=
  let st := text.foldl scanStep ⟨[], [], []⟩
  if hasInk st.buf then (st.ameter ++ ['s'], st.parts ++ [st.buf])
  else (st.ameter, st.parts)

/-- Python `s.replace("ws", "-")`: left-to-right, non-overlapping. -/
def replaceWSDash : List Char → List Char
  | [] => []
  | [c] => [c]
  | c1 :: c2 :: rest =>
    if c1 = 'w' ∧ c2 = 's' then '-' :: replaceWSDash rest
    else c1 :: replaceWSDash (c2 :: rest)

/-- Python `s.replace(a, b)` for single characters: a character map. -/
def mapReplace (a b : Char) (s : List Char) : List Char :=
  s.map (fun c => if c = a then b else c)

/-- `a2e_meter(ameter)` from the source: `res.replace("ws", "-")` then
`res.replace("w", "u")`. -/
def a2e_meter (ameter : List Char) : List Char :=
  mapReplace 'w' 'u' (replaceWSDash ameter)

/-- Python `s.replace("-", "ws")`: each dash expands independently. -/
def replaceDashWS : List Char → List Char
  | [] => []
  | c :: rest =>
    if c = '-' then 'w' :: 's' :: replaceDashWS rest
    else c :: replaceDashWS rest

/-- `e2a_meter(emeter)` from the source: `res.replace("-", "ws")` then
`res.replace("u", "w")`. -/
def e2a_meter (emeter : List Char) : List Char :=
  mapReplace 'u' 'w' (replaceDashWS emeter)

lemma mapReplace_cons (a b c : Char) (s : List Char) :
    mapReplace a b (c :: s) = (if c = a then b else c) :: mapReplace a b s := rfl

lemma replaceWSDash_cons2 (c1 c2 : Char) (t : List Char) :
    replaceWSDash (c1 :: c2 :: t) =
      if c1 = 'w' ∧ c2 = 's' then '-' :: replaceWSDash t
      else c1 :: replaceWSDash (c2 :: t) := rfl

/-- Round-trip of the two string-replace chains on any string over the
binary alphabet. -/
lemma e2a_a2e_roundtrip :
    ∀ s : List Char, (∀ c ∈ s, c = 'w' ∨ c = 's') →
      e2a_meter (a2e_meter s) = s := by
  intro s
  induction s using replaceWSDash.induct with
  | case1 => intro _; rfl
  | case2 c =>
    intro hs
    rcases hs c (by simp) with h | h <;> subst h <;> rfl
  | case3 c1 c2 rest h ih =>
    intro hs
    obtain ⟨h1, h2⟩ := h
    subst h1; subst h2
    have ih' := ih (fun c hc => hs c (by simp [hc]))
    calc e2a_meter (a2e_meter ('w' :: 's' :: rest))
        = 'w' :: 's' :: e2a_meter (a2e_meter rest) := rfl
      _ = 'w' :: 's' :: rest := by rw [ih']
  | case4 c1 c2 rest h ih =>
    intro hs
    have ih' := ih (fun c hc => hs c (by simp at hc ⊢; tauto))
    rcases hs c1 (by simp) with h1 | h1
    · -- c1 = 'w', hence c2 ≠ 's'
      subst h1
      have e1 : replaceWSDash ('w' :: c2 :: rest) = 'w' :: replaceWSDash (c2 :: rest) := by
        rw [replaceWSDash_cons2, if_neg h]
      have e2 : e2a_meter (a2e_meter ('w' :: c2 :: rest)) =
          'w' :: e2a_meter (a2e_meter (c2 :: rest)) := by
        show mapReplace 'u' 'w'
            (replaceDashWS (mapReplace 'w' 'u' (replaceWSDash ('w' :: c2 :: rest)))) = _
        rw [e1]; rfl
      rw [e2, ih']
    · -- c1 = 's'
      subst h1
      have e1 : replaceWSDash ('s' :: c2 :: rest) = 's' :: replaceWSDash (c2 :: rest) := by
        rw [replaceWSDash_cons2, if_neg (fun hh => absurd hh.1 (by decide))]
      have e2 : e2a_meter (a2e_meter ('s' :: c2 :: rest)) =
          's' :: e2a_meter (a2e_meter (c2 :: rest)) := by
        show mapReplace 'u' 'w'
            (replaceDashWS (mapReplace 'w' 'u' (replaceWSDash ('s' :: c2 :: rest)))) = _
        rw [e1]; rfl
      rw [e2, ih']

/-- Every character the tokenizer puts into the ameter string is `w` or `s`. -/
lemma scanStep_ameter_chars (st : ScanState) (c : Char)
    (h : ∀ x ∈ st.ameter, x = 'w' ∨ x = 's') :
    ∀ x ∈ (scanStep st c).ameter, x = 'w' ∨ x = 's' := by
  unfold scanStep
  dsimp only
  split
  · split
    · intro x hx
      simp only [List.mem_append] at hx
      rcases hx with hx | hx
      · exact h x hx
      · simp at hx; tauto
    · intro x hx
      simp only [List.mem_append] at hx
      rcases hx with hx | hx
      · exact h x hx
      · simp at hx; tauto
  · exact h

lemma foldl_ameter_chars (text : List Char) :
    ∀ st : ScanState, (∀ x ∈ st.ameter, x = 'w' ∨ x = 's') →
      ∀ x ∈ (text.foldl scanStep st).ameter, x = 'w' ∨ x = 's' := by
  induction text with
  | nil => intro st h; exact h
  | cons c rest ih =>
    intro st h
    exact ih (scanStep st c) (scanStep_ameter_chars st c h)

lemma get_ameter_chars (text : List Char) :
    ∀ x ∈ (get_ameter text).1, x = 'w' ∨ x = 's' := by
  unfold get_ameter
  dsimp only
  have hfold := foldl_ameter_chars text ⟨[], [], []⟩ (by simp)
  split
  · intro x hx
    simp only [List.mem_append] at hx
    rcases hx with hx | hx
    · exact hfold x hx
    · simp at hx; tauto
  · exact hfold

/-- Modelled from the spec: the module `aruudy.poetry.foot` is not under `src`,
only its caller `meter.py` is.  Per §4.3 a foot pattern (Tafiila) owns an
ordered list of licensed variant shapes (syllabic strings, priority =
registration order). -/
abbrev Tafiila : Type := List (List Char)

/-- Modelled from the spec: `Tafiila.process` (§4.3) tries each variant shape,
in list order, as a literal prefix of the remaining input; the first shape
that is a prefix is removed and returned; if no shape is a prefix, the result
is an absent match with the input unchanged. -/
def Tafiila.process (t : Tafiila) (s : List Char) : Option (List Char) × List Char :=
  match t with
  | [] => (none, s)
  | shape :: rest =>
    if shape = s.take shape.length then (some shape, s.drop shape.length)
    else Tafiila.process rest s

/-- The inner `for foot in var` loop of `Bahr.validate`: feed the input through
the feet in sequence, accumulating matched shapes; on the first failed foot
the whole variant fails (`res = None`). -/
def footSeq : List Tafiila → List Char → List (List Char) →
    Option (List (List Char)) × List Char
  | [], s, acc => (some acc, s)
  | ft :: rest, s, acc =>
    match ft.process s with
    | (some shape, s') => footSeq rest s' (acc ++ [shape])
    | (none, s') => (none, s')

/-- The outer `for var in self.meter` loop of `Bahr.validate`: try each variant
on the full input; return the first truthy result (`if res:` — an empty list
is falsy and is skipped, like `None`). -/
def validateGo : List (List Tafiila) → List Char → Option (List (List Char))
  | [], _ => none
  | var :: rest, s =>
    match footSeq var s [] with
    | (some res, _) => if res = [] then validateGo rest s else some res
    | (none, _) => validateGo rest s

/-- A meter template (`Bahr`): the identity dictionary `name`, the variants of
feet `meter` (foot contents modelled from the spec, see `Tafiila`), the
mnemonic verse `key`, and the two scansion dictionaries computed at
construction time. -/
structure Bahr where
  name : List (String × String)
  meter : List (List Tafiila)
  key : String
  used_scansion : List (String × String)
  std_scansion : List (String × String)
deriving DecidableEq

/-- `Bahr.validate(emeter)` from the source (lines 213-226). -/
def Bahr.validate (b : Bahr) (emeter : List Char) : Option (List (List Char)) :=
  validateGo b.meter emeter

/-- `search_bahr(emeter)` from the source (lines 544-550): scan the registry in
registration order and return the first template whose `validate` is truthy. -/
def search_bahr : List Bahr → List Char → Option Bahr × Option (List (List Char))
  | [], _ => (none, none)
  | b :: rest, s =>
    match b.validate s with
    | some res => if res = [] then search_bahr rest s else (some b, some res)
    | none => search_bahr rest s

/-- The `keys` list every `Bahr.__init__` builds: the insertion order of the
`info` dictionary (`name`, `meter`, `key`) followed by the two scansions. -/
def bahrKeys : List String := ["name", "meter", "key", "used_scansion", "std_scansion"]

/-- The possible values stored in a `Bahr` attribute. -/
inductive PyVal where
  | str : String → PyVal
  | strDict : List (String × String) → PyVal
  | meterVal : List (List Tafiila) → PyVal
deriving DecidableEq

/-- The exceptions `get_value` can surface: the typed `BahrError`, a plain
`KeyError` from a dictionary subscript, and a `TypeError` from subscripting a
non-dictionary value with a string key. -/
inductive PyErr where
  | bahrError : String → PyErr
  | keyError : String → PyErr
  | typeError : PyErr
deriving DecidableEq

/-- Python `res[key2]` on a stored attribute value: a dictionary yields the
entry or a `KeyError`; a string or a list subscripted with a string raises
`TypeError`. -/
def pySubscript (v : PyVal) (k : String) : Except PyErr PyVal :=
  match v with
  | .strDict d =>
    match d.lookup k with
    | some s => .ok (.str s)
    | none => .error (.keyError k)
  | .str _ => .error .typeError
  | .meterVal _ => .error .typeError

/-- The attribute store of a `Bahr`: `getattr(self, key)` for the registered keys. -/
def getattr (b : Bahr) : String → Option PyVal
  | "name" => some (.strDict b.name)
  | "meter" => some (.meterVal b.meter)
  | "key" => some (.str b.key)
  | "used_scansion" => some (.strDict b.used_scansion)
  | "std_scansion" => some (.strDict b.std_scansion)
  | _ => none

/-- `Bahr.get_value(key, key2)` from the source (lines 197-203): raise
`BahrError` when `key` is not registered; otherwise fetch the attribute and,
when `key2` is truthy (Python: not `None` and not the empty string),
subscript it. -/
def get_value (b : Bahr) (key : String) (key2 : Option String) : Except PyErr PyVal :=
  if key ∈ bahrKeys then
    match getattr b key with
    | some res =>
      match key2 with
      | some k2 => if k2 = "" then .ok res else pySubscript res k2
      | none => .ok res
    | none => .error (.bahrError key)
  else .error (.bahrError key)

/-- `name_type(name)` from the source (lines 494-497): `re.match("^[a-zA-Z]", name)`
decides between the English and the Arabic name field. -/
def name_type (name : String) : String :=
  match name.data with
  | c :: _ =>
    if ('a' ≤ c ∧ c ≤ 'z') ∨ ('A' ≤ c ∧ c ≤ 'Z') then "english" else "arabic"
  | [] => "arabic"

/-- `b.test_property("name", name, label)` as used by `get_bahr`: compare the
`label` entry of the name dictionary with `name`. -/
def test_name (b : Bahr) (name : String) (label : String) : Bool :=
  b.name.lookup label == some name

/-- `get_bahr(name)` from the source (lines 499-524): classify the name with
`name_type`, then return the first registered template whose corresponding
name field equals `name` (the `dic` flag only post-processes the found
template into a dictionary; presence/absence is unchanged). -/
def get_bahr (reg : List Bahr) (name : String) : Option Bahr :=
  reg.find? (fun b => test_name b name (name_type name))

/-- Helper to build the registry entries.  The identity dictionary and the
mnemonic verse `key` are copied from the source; the `meter` feet and the two
scansions are computed from `aruudy.poetry.foot`, which is not under `src`,
and are never read by name lookup, so they are left empty here. -/
def mkBahr (ar en tr : String) (k : String) : Bahr :=
  { name := [("arabic", ar), ("english", en), ("trans", tr)],
    meter := [], key := k, used_scansion := [], std_scansion := [] }

def tawiil : Bahr :=
  mkBahr "طويل" "long" "ṭawīl" "طويلٌ له دون البحور فضائلٌ  فعولن مفاعيلن فعولن مفاعلن"

def madiid : Bahr :=
  mkBahr "مديد" "protracted" "madīd" "لمديد الشعر عندي صفاتُ  فاعلاتن فاعلن فاعلاتن"

def basiit : Bahr :=
  mkBahr "بسيط" "spread-out" "basīṭ" "إن البسيط لديه يبسط الأملُ  مستفعلن فعلن مستفعلن فعلن"

def wafir : Bahr :=
  mkBahr "وافر" "abundant" "wāfir" "بحور الشعر وافرها جميل  مفاعلتن مفاعلتن فعولن"

def kaamil : Bahr :=
  mkBahr "كامل" "complete" "kāmil" "كمل الجمال من البحور الكامل متفاعلن متفاعلن متفاعلن"

def hazj : Bahr :=
  mkBahr "هزج" "trilling" "hazaj" "على الأهزاج تسهيل      مفاعيلن مفاعيلن"

def rajz : Bahr :=
  mkBahr "رجز" "trembling" "rajaz" "في أبحر الأرجاز بحرٌ يسهل   مستفعلن مستفعلن مستفعلن"

def raml : Bahr :=
  mkBahr "رمل" "trotting" "ramal" "رمل الأبحر ترويه الثقات فاعلاتن فاعلاتن فاعلاتن"

def sariie : Bahr :=
  mkBahr "سريع" "swift" "sarīʿ" "بحرٌ سريع ماله ساحل مستفعلن مستفعلن فاعلن"

def munsarih : Bahr :=
  mkBahr "منسرح" "quick-paced" "munsariħ" "منسرح فيه يضرب المثل    مستفعلن مفعولات مفتعلن"

def khafiif : Bahr :=
  mkBahr "خفيف" "light" "khafīf" "يا خفيفاً خفّت به الحركات   فاعلاتن مستفعلن فاعلاتن"

def mudharie : Bahr :=
  mkBahr "مضارع" "similar" "muḍāriʿ" "تعدّ المضارعات  مفاعيلُ فاعلاتن"

def muqtadhib : Bahr :=
  mkBahr "مقتضب" "untrained" "muqtaḍab" "اقتضب كما سألوا مفعلات مفتعلن"

def mujdath : Bahr :=
  mkBahr "مجتث" "cut-off" "mujtathth" "أن جثت الحركات  مستفعلن فاعلاتن"

def mutaqaarib : Bahr :=
  mkBahr "متقارب" "nearing" "mutaqārib" "عن المتقارب قال الخليل      فعولن فعولن فعولن فعول"

def mutadaarik : Bahr :=
  mkBahr "متدارك" "overtaking" "mutadārik" "حركات المحدث تنتقل  فعلن فعلن فعلن فعل"

/-- The registry `buhuur`, in the registration order fixed by the module body
(each `Bahr(...)` constructor appends `self` to the global list). -/
def buhuur : List Bahr :=
  [tawiil, madiid, basiit, wafir, kaamil, hazj, rajz, raml, sariie, munsarih,
   khafiif, mudharie, muqtadhib, mujdath, mutaqaarib, mutadaarik]

lemma a2e_cons_s (t : List Char) : a2e_meter ('s' :: t) = 's' :: a2e_meter t := by
  cases t with
  | nil => rfl
  | cons c2 r =>
    show mapReplace 'w' 'u' (replaceWSDash ('s' :: c2 :: r)) = _
    rw [replaceWSDash_cons2, if_neg (fun hh => absurd hh.1 (by decide))]
    rfl

lemma e2a_cons_s (t : List Char) : e2a_meter ('s' :: t) = 's' :: e2a_meter t := rfl

/-- C2: for every symbol string over the binary alphabet that `get_ameter` can
produce, converting to the syllabic encoding and back is the identity:
`e2a_meter (a2e_meter s) = s`. -/
theorem c2_roundtrip_producible (text : List Char) :
    e2a_meter (a2e_meter (get_ameter text).1) = (get_ameter text).1 :=
  e2a_a2e_roundtrip _ (get_ameter_chars text)

/-- C9: `a2e_meter` leaves an `s` that is not consumed by an immediately
preceding `w` unchanged (here at the head of the string, the case produced by
a tokenizer output that begins with a cord); `get_ameter` can produce such an
output (on a two-consonant input whose first consonant is unvocalized); the
resulting syllabic string contains `s`, which is outside the documented
alphabet of `-` and `u`; `e2a_meter` maps it back unchanged and the round
trip still holds. -/
theorem c9_unconsumed_s_preserved :
    (∀ t : List Char, a2e_meter ('s' :: t) = 's' :: a2e_meter t)
    ∧ (∀ t : List Char, e2a_meter ('s' :: t) = 's' :: e2a_meter t)
    ∧ (get_ameter ['ب', 'ب', 'َ']).1 = ['s', 'w']
    ∧ a2e_meter ['s', 'w'] = ['s', 'u']
    ∧ ((['-', 'u'] : List Char).contains 's') = false
    ∧ e2a_meter (a2e_meter ['s', 'w']) = ['s', 'w'] :=
  ⟨a2e_cons_s, e2a_cons_s, by decide, by decide, by decide, by decide⟩

lemma name_type_cases (nm : String) :
    name_type nm = "english" ∨ name_type nm = "arabic" := by
  unfold name_type
  cases hd : nm.data with
  | nil => exact Or.inr rfl
  | cons c t =>
    by_cases h : ('a' ≤ c ∧ c ≤ 'z') ∨ ('A' ≤ c ∧ c ≤ 'Z')
    · exact Or.inl (if_pos h)
    · exact Or.inr (if_neg h)

/-- C3 counterexample: the transliterated name `hazaj` of the registered
template `hazj` is looked up via `get_bahr` and yields `none`, not the
template whose `trans` field it equals. -/
theorem c3_counterexample :
    get_bahr buhuur "hazaj" = none
    ∧ hazj ∈ buhuur
    ∧ hazj.name.lookup "trans" = some "hazaj" := by
  refine ⟨by decide, by decide, rfl⟩

/-- C3 (amended): `get_bahr` routes a name by its first character — ASCII
letter to the English field, anything else to the Arabic field — and returns
the first registered template whose routed field equals the name; English and
Arabic names of registered templates are found, and a name equal to no
template's English or Arabic field yields `none` (in particular,
transliterated names are never matched against the `trans` field). -/
theorem c3_lookup_routed :
    (∀ b ∈ buhuur, get_bahr buhuur ((b.name.lookup "english").getD "") = some b)
    ∧ (∀ b ∈ buhuur, get_bahr buhuur ((b.name.lookup "arabic").getD "") = some b)
    ∧ ∀ nm : String,
        (∀ b ∈ buhuur,
          b.name.lookup "english" ≠ some nm ∧ b.name.lookup "arabic" ≠ some nm) →
        get_bahr buhuur nm = none := by
  refine ⟨by decide, by decide, ?_⟩
  intro nm h
  unfold get_bahr
  rw [List.find?_eq_none]
  intro b hb
  unfold test_name
  rcases name_type_cases nm with hc | hc <;> rw [hc] <;> simp only [beq_iff_eq]
  · exact fun hh => (h b hb).1 hh
  · exact fun hh => (h b hb).2 hh

/-- C3 witness: an English-name lookup found by the amended theorem, and an
unmatched name yielding `none`. -/
theorem c3_witness :
    get_bahr buhuur ((tawiil.name.lookup "english").getD "") = some tawiil
    ∧ get_bahr buhuur "zzz" = none :=
  ⟨c3_lookup_routed.1 tawiil (by decide), c3_lookup_routed.2.2 "zzz" (by decide)⟩

lemma get_value_ok_of_mem (b : Bahr) (key : String) (hk : key ∈ bahrKeys) :
    ∃ v, getattr b key = some v ∧ get_value b key none = .ok v := by
  have hv : ∃ v, getattr b key = some v := by
    simp only [bahrKeys, List.mem_cons, List.not_mem_nil, or_false] at hk
    rcases hk with rfl | rfl | rfl | rfl | rfl
    · exact ⟨_, rfl⟩
    · exact ⟨_, rfl⟩
    · exact ⟨_, rfl⟩
    · exact ⟨_, rfl⟩
    · exact ⟨_, rfl⟩
  obtain ⟨v, hv⟩ := hv
  refine ⟨v, hv, ?_⟩
  unfold get_value
  rw [if_pos hk, hv]

/-- C8: `get_value(key)` raises `BahrError` exactly when `key` is not among the
registered keys; on a registered key the stored attribute value is returned
and no error is raised. -/
theorem c8_get_value_bahr_error_iff (b : Bahr) (key : String) :
    (get_value b key none = .error (.bahrError key) ↔ key ∉ bahrKeys)
    ∧ (key ∈ bahrKeys → ∃ v, getattr b key = some v ∧ get_value b key none = .ok v) := by
  constructor
  · constructor
    · intro h hk
      obtain ⟨v, _, hok⟩ := get_value_ok_of_mem b key hk
      rw [hok] at h
      cases h
    · intro hk
      unfold get_value
      rw [if_neg hk]
  · exact fun hk => get_value_ok_of_mem b key hk

/-- C8 witness: on the registered key `name` the stored value is returned; on
the unregistered key `volume` the typed `BahrError` is raised. -/
theorem c8_witness :
    (∃ v, getattr tawiil "name" = some v ∧ get_value tawiil "name" none = Except.ok v)
    ∧ get_value tawiil "volume" none = Except.error (PyErr.bahrError "volume") :=
  ⟨(c8_get_value_bahr_error_iff tawiil "name").2 (by decide),
   ((c8_get_value_bahr_error_iff tawiil "volume").1).mpr (by decide)⟩

/-- C10: `get_value(key, key2)` with the registered dictionary-valued key
`name` but a `key2` missing from that dictionary raises a `KeyError`, not the
typed `BahrError`; the `BahrError` check covers only the first-level key. -/
theorem c10_second_key_keyerror (b : Bahr) (k2 : String) (hne : k2 ≠ "")
    (hmiss : b.name.lookup k2 = none) :
    get_value b "name" (some k2) = .error (.keyError k2)
    ∧ PyErr.keyError k2 ≠ PyErr.bahrError k2 := by
  constructor
  · have h1 : get_value b "name" (some k2) =
        if k2 = "" then .ok (.strDict b.name) else pySubscript (.strDict b.name) k2 := by
      unfold get_value
      rw [if_pos (show "name" ∈ bahrKeys by decide)]
      rfl
    rw [h1, if_neg hne]
    simp only [pySubscript, hmiss]
  · intro h
    cases h

/-- C10 witness: requesting the missing second-level key `latin` of the `name`
dictionary of a registered template raises `KeyError`. -/
theorem c10_witness :
    get_value tawiil "name" (some "latin") = Except.error (PyErr.keyError "latin")
    ∧ PyErr.keyError "latin" ≠ PyErr.bahrError "latin" :=
  c10_second_key_keyerror tawiil "latin" (by decide) (by decide)

lemma init2_tail2 (l : List Char) : pyInit2 l ++ pyTail2 l = l :=
  List.take_append_drop _ l

lemma init2_tail2_append (l t : List Char) : pyInit2 l ++ (pyTail2 l ++ t) = l ++ t := by
  rw [← List.append_assoc, init2_tail2]

lemma scanStep_concat (st : ScanState) (c : Char) :
    ((scanStep st c).parts).flatten ++ (scanStep st c).buf =
      st.parts.flatten ++ st.buf ++ [c] := by
  unfold scanStep
  dsimp only
  split
  · split
    · simp [init2_tail2, init2_tail2_append, List.append_assoc]
    · simp [List.append_assoc]
  · simp [List.append_assoc]

lemma foldl_concat (text : List Char) :
    ∀ st : ScanState,
      ((text.foldl scanStep st).parts).flatten ++ (text.foldl scanStep st).buf =
        st.parts.flatten ++ st.buf ++ text := by
  induction text with
  | nil => intro st; simp
  | cons c rest ih =>
    intro st
    rw [List.foldl_cons, ih (scanStep st c), scanStep_concat]
    simp [List.append_assoc]

/-- C5: concatenating, in order, the parts returned by `get_ameter` reproduces
the scanned input exactly, except for a dropped remainder that is pure
whitespace. -/
theorem c5_parts_reconstruct (text : List Char) :
    ∃ rest : List Char, (∀ c ∈ rest, isSpace c = true)
      ∧ (get_ameter text).2.flatten ++ rest = text := by
  have h := foldl_concat text ⟨[], [], []⟩
  simp only [List.flatten_nil, List.nil_append] at h
  unfold get_ameter
  dsimp only
  split
  · refine ⟨[], by simp, ?_⟩
    simpa [List.append_assoc] using h
  · rename_i hink
    refine ⟨(text.foldl scanStep ⟨[], [], []⟩).buf, ?_, h⟩
    intro c hc
    simp only [hasInk, List.any_eq_true, Bool.not_eq_true', eq_self_iff_true] at hink
    by_contra hsp
    exact hink ⟨c, hc, by simp [hsp]⟩

lemma process_front (t : Tafiila) (s : List Char) :
    ∀ shape s', t.process s = (some shape, s') → shape ++ s' = s := by
  induction t with
  | nil =>
    intro shape s' h
    simp [Tafiila.process] at h
  | cons sh rest ih =>
    intro shape s' h
    unfold Tafiila.process at h
    by_cases hpre : sh = s.take sh.length
    · rw [if_pos hpre] at h
      injection h with h2 h3
      injection h2 with h2
      subst h2
      subst h3
      nth_rewrite 1 [hpre]
      exact List.take_append_drop _ s
    · rw [if_neg hpre] at h
      exact ih shape s' h

lemma footSeq_front :
    ∀ (feet : List Tafiila) (s : List Char) (acc : List (List Char)) r s',
      footSeq feet s acc = (some r, s') →
      ∃ mid, r = acc ++ mid ∧ mid.flatten ++ s' = s := by
  intro feet
  induction feet with
  | nil =>
    intro s acc r s' h
    obtain ⟨rfl, rfl⟩ : acc = r ∧ s = s' := by simpa [footSeq] using h
    exact ⟨[], by simp, rfl⟩
  | cons ft rest ih =>
    intro s acc r s' h
    unfold footSeq at h
    cases hp : ft.process s with
    | mk o s1 =>
      rw [hp] at h
      cases o with
      | none => simp at h
      | some shape =>
        obtain ⟨mid, hr, hm⟩ := ih s1 (acc ++ [shape]) r s' h
        refine ⟨shape :: mid, by simp [hr], ?_⟩
        have hsh : shape ++ s1 = s := process_front ft s shape s1 hp
        calc (shape :: mid).flatten ++ s'
            = shape ++ (mid.flatten ++ s') := by simp [List.append_assoc]
          _ = shape ++ s1 := by rw [hm]
          _ = s := hsh

lemma validateGo_front :
    ∀ (meter : List (List Tafiila)) (s : List Char) r,
      validateGo meter s = some r → ∃ rest, r.flatten ++ rest = s := by
  intro meter
  induction meter with
  | nil => intro s r h; simp [validateGo] at h
  | cons var rest ih =>
    intro s r h
    unfold validateGo at h
    cases hf : footSeq var s [] with
    | mk o s1 =>
      rw [hf] at h
      cases o with
      | some res =>
        have h' : (if res = [] then validateGo rest s else some res) = some r := h
        by_cases hres : res = []
        · rw [if_pos hres] at h'
          exact ih s r h'
        · rw [if_neg hres] at h'
          obtain rfl : res = r := by simpa using h'
          obtain ⟨mid, hmid, hm⟩ := footSeq_front var s [] res s1 hf
          rw [hmid]
          exact ⟨s1, by simpa using hm⟩
      | none => exact ih s r h

/-- C1 (amended): `Bahr.validate` returns a non-`None` per-foot breakdown only
if the feet of the chosen variant successively match the front of the input:
the matched foot shapes concatenate to an initial portion of the original
input; the leftover after the last foot is *not* required to be empty. -/
theorem c1_validate_consumed_front (b : Bahr) (emeter : List Char)
    (r : List (List Char)) (h : b.validate emeter = some r) :
    ∃ rest, r.flatten ++ rest = emeter :=
  validateGo_front b.meter emeter r h

/-- A one-variant, one-foot template whose single licensed shape is the short
syllable `u` (foot contents modelled from the spec, see `Tafiila`). -/
def uFoot : Tafiila := [['u']]

def uBahr : Bahr :=
  { name := [("arabic", "ب"), ("english", "demo"), ("trans", "demo")],
    meter := [[uFoot]], key := "", used_scansion := [], std_scansion := [] }

/-- C1 counterexample: on the input `uu`, `validate` succeeds with the single
matched shape `u` even though the feet leave the unconsumed leftover `u` —
the matched shapes do not concatenate to the original input and the leftover
is not empty, yet the result is non-`None`. -/
theorem c1_counterexample :
    uBahr.validate ['u', 'u'] = some [['u']]
    ∧ (List.flatten [['u']] == (['u', 'u'] : List Char)) = false
    ∧ footSeq [uFoot] ['u', 'u'] [] = (some [['u']], ['u']) :=
  ⟨rfl, rfl, rfl⟩

/-- C1 witness: the amended theorem applied to the one-foot template on the
fully consumed input `u`. -/
theorem c1_witness : ∃ rest, (List.flatten [['u']]) ++ rest = (['u'] : List Char) :=
  c1_validate_consumed_front uBahr ['u'] [['u']] rfl

/-- C6: if the template at index `i` validates the input with a truthy result
and every earlier-registered template does not (its `validate` is `None` or
falsy), then `search_bahr` returns that earliest validating template together
with its breakdown.  In particular, when two or more registered templates
would validate the same input, the one registered first wins; the result is a
pure function of the registry and the input, so it is identical on every
call. -/
theorem c6_search_first_registered (reg : List Bahr) (s : List Char) (i : Nat)
    (hi : i < reg.length) (res : List (List Char))
    (hres : reg[i].validate s = some res) (hne : res ≠ [])
    (hmin : ∀ j (hj : j < reg.length), j < i →
      ∀ r, reg[j].validate s = some r → r = []) :
    search_bahr reg s = (some reg[i], some res) := by
  induction reg generalizing i with
  | nil => exact absurd hi (by simp)
  | cons b tl ih =>
    cases i with
    | zero =>
      simp only [List.getElem_cons_zero] at hres ⊢
      unfold search_bahr
      rw [hres]
      show (if res = [] then search_bahr tl s else (some b, some res)) = (some b, some res)
      rw [if_neg hne]
    | succ j =>
      have hj : j < tl.length := by simpa using hi
      have hres' : tl[j].validate s = some res := by
        simpa only [List.getElem_cons_succ] using hres
      have hmin' : ∀ k (hk : k < tl.length), k < j →
          ∀ r, tl[k].validate s = some r → r = [] := by
        intro k hk hkj r hr
        exact hmin (k + 1) (by simpa using hk) (by omega) r
          (by simpa only [List.getElem_cons_succ] using hr)
      have htail := ih j hj hres' hmin'
      have hgoal : search_bahr (b :: tl) s = search_bahr tl s := by
        show (match b.validate s with
          | some res => if res = [] then search_bahr tl s else (some b, some res)
          | none => search_bahr tl s) = search_bahr tl s
        cases hb : b.validate s with
        | none => rfl
        | some r =>
          have hr0 : r = [] :=
            hmin 0 (by simp) (by omega) r
              (by simpa only [List.getElem_cons_zero] using hb)
          show (if r = [] then search_bahr tl s else (some b, some r)) = search_bahr tl s
          rw [if_pos hr0]
      rw [hgoal, htail]
      simp only [List.getElem_cons_succ]

/-- C6 witness: a registry of two templates that both validate the input `u`;
search returns the first-registered one. -/
theorem c6_witness :
    Bahr.validate { uBahr with key := "b" } ['u'] = some [['u']]
    ∧ search_bahr [uBahr, { uBahr with key := "b" }] ['u'] = (some uBahr, some [['u']]) :=
  ⟨rfl,
   c6_search_first_registered [uBahr, { uBahr with key := "b" }] ['u'] 0 (by decide)
     [['u']] rfl (by decide) (fun j hj hji r hr => absurd hji (by omega))⟩

/-- C7: when `validate` returns `None` for every registered template,
`search_bahr` returns the absent pair `(None, None)` (and, being a total
function, raises nothing). -/
theorem c7_search_no_match (reg : List Bahr) (s : List Char)
    (h : ∀ b ∈ reg, b.validate s = none) :
    search_bahr reg s = (none, none) := by
  induction reg with
  | nil => rfl
  | cons b tl ih =>
    unfold search_bahr
    rw [h b (by simp)]
    exact ih (fun b' hb' => h b' (by simp [hb']))

/-- C7 witness: the one-foot template does not validate the input `-`, and
search on the one-template registry returns the absent pair. -/
theorem c7_witness : search_bahr [uBahr] ['-'] = (none, none) :=
  c7_search_no_match [uBahr] ['-'] (by decide)

lemma pyTail2_length_le (l : List Char) : (pyTail2 l).length ≤ 2 := by
  simp only [pyTail2, List.length_drop]
  omega

lemma pyTail2_getLast (l : List Char) (c : Char) :
    (pyTail2 (l ++ [c])).getLast? = some c := by
  unfold pyTail2
  rw [List.drop_append_of_le_length (by simp), List.getLast?_concat]

lemma hasInk_false (l : List Char) (h : hasInk l = false) :
    ∀ c ∈ l, isSpace c = true := by
  intro c hc
  by_contra hsp
  have hany : l.any (fun x => !(isSpace x)) = true :=
    List.any_eq_true.mpr ⟨c, hc, by simp [hsp]⟩
  rw [hasInk, hany] at h
  cases h

/-- The shape every emitted peg part has: a pure-whitespace prefix followed by
at most two characters, the last of which is the triggering diacritic. -/
def pegShape (seg : List Char) : Prop :=
  ∃ pre pair, seg = pre ++ pair ∧ (∀ c ∈ pre, isSpace c = true)
    ∧ pair.length ≤ 2 ∧ ∃ d, pair.getLast? = some d ∧ haraka d = true

/-- The loop invariant for the peg-part shape: the ameter string and the parts
list stay aligned, and every part paired with a `w` has `pegShape`. -/
def partsInv (st : ScanState) : Prop :=
  st.ameter.length = st.parts.length ∧
  ∀ p ∈ List.zip st.ameter st.parts, p.1 = 'w' → pegShape p.2

lemma scanStep_partsInv (st : ScanState) (c : Char) (hinv : partsInv st) :
    partsInv (scanStep st c) := by
  obtain ⟨hlen, hzip⟩ := hinv
  unfold scanStep
  dsimp only
  split
  · rename_i hc
    split
    · refine ⟨by simp [hlen], ?_⟩
      intro p hp
      rw [List.zip_append hlen, List.mem_append] at hp
      rcases hp with hp | hp
      · exact hzip p hp
      · simp only [List.zip_cons_cons, List.zip_nil_right, List.mem_cons,
          List.not_mem_nil, or_false] at hp
        rcases hp with rfl | rfl
        · intro hw
          have hw' : ('s' : Char) = 'w' := hw
          exact absurd hw' (by decide)
        · intro _
          exact ⟨[], pyTail2 (st.buf ++ [c]), by simp, by simp,
            pyTail2_length_le _, c, pyTail2_getLast _ _, hc⟩
    · rename_i hink'
      have hink : hasInk (pyInit2 (st.buf ++ [c])) = false := by
        simpa using hink'
      refine ⟨by simp [hlen], ?_⟩
      intro p hp
      rw [List.zip_append hlen, List.mem_append] at hp
      rcases hp with hp | hp
      · exact hzip p hp
      · simp only [List.zip_cons_cons, List.zip_nil_right, List.mem_cons,
          List.not_mem_nil, or_false] at hp
        rcases hp with rfl
        intro _
        exact ⟨pyInit2 (st.buf ++ [c]), pyTail2 (st.buf ++ [c]),
          (init2_tail2 _).symm, hasInk_false _ hink,
          pyTail2_length_le _, c, pyTail2_getLast _ _, hc⟩
  · exact ⟨hlen, hzip⟩

lemma foldl_partsInv (text : List Char) :
    ∀ st : ScanState, partsInv st → partsInv (text.foldl scanStep st) := by
  induction text with
  | nil => intro st h; exact h
  | cons c rest ih =>
    intro st h
    exact ih (scanStep st c) (scanStep_partsInv st c h)

/-- C4 counterexample: on the input consisting of a space, a consonant and a
fatha, the single emitted segment is a peg (`w`) of three characters — not
exactly the last two buffered characters — and the pure-whitespace content
buffered before the pair appears inside that emitted segment instead of being
dropped. -/
theorem c4_counterexample :
    get_ameter [' ', 'ب', 'َ'] = (['w'], [[' ', 'ب', 'َ']])
    ∧ ([' ', 'ب', 'َ'] : List Char).length = 3
    ∧ (' ' ∈ ([' ', 'ب', 'َ'] : List Char))
    ∧ isSpace ' ' = true :=
  ⟨rfl, rfl, by decide, rfl⟩

/-- C4 (amended): every segment that `get_ameter` emits as a peg (paired with
`w` in the ameter string) consists of a pure-whitespace prefix — which is
retained in the peg segment, not dropped — followed by the last (at most two)
buffered characters, ending in the diacritic that triggered the emission;
when the pre-pair buffer has non-whitespace content the prefix is empty and
the peg is exactly the two-character pair, the non-whitespace content having
been emitted first as a cord. -/
theorem c4_peg_segment_shape (text : List Char) (p : Char × List Char)
    (hp : p ∈ List.zip (get_ameter text).1 (get_ameter text).2)
    (hw : p.1 = 'w') :
    ∃ pre pair, p.2 = pre ++ pair ∧ (∀ c ∈ pre, isSpace c = true)
      ∧ pair.length ≤ 2 ∧ ∃ d, pair.getLast? = some d ∧ haraka d = true := by
  have hinv : partsInv (text.foldl scanStep ⟨[], [], []⟩) :=
    foldl_partsInv text ⟨[], [], []⟩ ⟨rfl, by simp⟩
  obtain ⟨hlen, hzip⟩ := hinv
  revert hp
  unfold get_ameter
  dsimp only
  split
  · intro hp
    rw [List.zip_append hlen, List.mem_append] at hp
    rcases hp with hp | hp
    · exact hzip p hp hw
    · simp only [List.zip_cons_cons, List.zip_nil_right, List.mem_cons,
        List.not_mem_nil, or_false] at hp
      subst hp
      have hw' : ('s' : Char) = 'w' := hw
      exact absurd hw' (by decide)
  · intro hp
    exact hzip p hp hw

/-- C4 witness: the amended theorem applied to the counterexample input, whose
peg segment is the whitespace prefix followed by the consonant-diacritic
pair. -/
theorem c4_witness :
    ∃ pre pair, ([' ', 'ب', 'َ'] : List Char) = pre ++ pair
      ∧ (∀ c ∈ pre, isSpace c = true) ∧ pair.length ≤ 2
      ∧ ∃ d, pair.getLast? = some d ∧ haraka d = true :=
  c4_peg_segment_shape [' ', 'ب', 'َ'] ('w', [' ', 'ب', 'َ']) (by decide) rfl
